import Mathlib

/-!
Verification of the Cuckfish chess engine's move-search core
(`engine/engine.py`, class `ChessEngine`, its most complete variant:
`next_move`, `search_initializer`, `evaluate_board`, `quiesce`,
`alphaBeta`, `ordered`).

The rules engine (the external `chess` library) is abstracted as a record
of query functions over an opaque `Pos` type, exactly the observations the
engine code makes on a `chess.Board`.  The mutable board with its
`push`/`pop` move stack is embedded by explicit state passing: every
search function takes the board state and returns the value together with
the final board state.  Python's recursion is embedded with a fuel
parameter (structural, so applications on concrete inputs compute);
`none` means the fuel ran out, never a behaviour of the code.
-/

namespace Cuckfish

/-- The observations `ChessEngine` makes on a `chess.Board`, the abstract
rules-engine contract.  `piece_map` is the list of occupied squares,
`color_at`/`piece_type_at`/`turn` are as in python-chess (True = white,
piece types 1..6 = pawn, knight, bishop, rook, queen, king), `game_over`
is the truthiness of `board.outcome()`, `san` renders a move. -/
structure Rules (Pos : Type) (Move : Type) where
  legal_moves : Pos → List Move
  push : Pos → Move → Pos
  pop : Pos → Pos
  game_over : Pos → Bool
  is_checkmate : Pos → Bool
  is_capture : Pos → Move → Bool
  piece_map : Pos → List Nat
  color_at : Pos → Nat → Bool
  piece_type_at : Pos → Nat → Nat
  turn : Pos → Bool
  san : Pos → Move → String

/-- Base material values: the dict `{1: 100, 2: 300, 3: 300, 4: 500,
5: 900, 6: 500}` in `evaluate_board` (key 6 is the king). -/
def pieceVal : Nat → Int
  | 1 => 100
  | 2 => 300
  | 3 => 300
  | 4 => 500
  | 5 => 900
  | 6 => 500
  | _ => 0

/-- Piece-square table for pawns (`pst[1]`). -/
def pstPawn : List Int :=
  [0,  0,  0,  0,  0,  0,  0,  0,
   5, 10, 10,-25,-25, 10, 10,  5,
   5, -5,-10,  0,  0,-10, -5,  5,
   5,  0,  0, 25, 25,  0,  0,  5,
   5,  5, 10, 27, 27, 10,  5,  5,
   10, 10, 20, 30, 30, 20, 10, 10,
   50, 50, 50, 50, 50, 50, 50, 50,
   0,  0,  0,  0,  0,  0,  0,  0]

/-- Piece-square table for knights (`pst[2]`). -/
def pstKnight : List Int :=
  [-50,-40,-30,-30,-30,-30,-40,-50,
   -40,-20,  0,  0,  0,  0,-20,-40,
   -30,  0, 10, 15, 15, 10,  0,-30,
   -30,  5, 15, 20, 20, 15,  5,-30,
   -30,  0, 15, 20, 20, 15,  0,-30,
   -30,  5, 10, 15, 15, 10,  5,-30,
   -40,-20,  0,  5,  5,  0,-20,-40,
   -50,-40,-20,-30,-30,-20,-40,-50]

/-- Piece-square table for bishops (`pst[3]`). -/
def pstBishop : List Int :=
  [-20,-10,-10,-10,-10,-10,-10,-20,
   -10, 15,  0,  0,  0,  0, 15,-10,
   -10, 10, 10, 10, 10, 10, 10,-10,
   -10,  0, 15, 10, 10, 15,  0,-10,
   -10,  5,  5, 10, 10,  5,  5,-10,
   -10,  0,  5, 10, 10,  5,  0,-10,
   -10,  0,  0,  0,  0,  0,  0,-10,
   -20,-10,-40,-10,-10,-40,-10,-20]

/-- Piece-square table for the king (`pst[6]`). -/
def pstKing : List Int :=
  [ 20,  30,  10,   0,   0,  10,  30,  20,
    20,  20,   0,   0,   0,   0,  20,  20,
   -10, -20, -20, -20, -20, -20, -20, -10,
   -20, -30, -30, -40, -40, -30, -30, -20,
   -30, -40, -40, -50, -50, -40, -40, -30,
   -30, -40, -40, -50, -50, -40, -40, -30,
   -30, -40, -40, -50, -50, -40, -40, -30,
   -30, -40, -40, -50, -50, -40, -40, -30]

/-- The `pst` dict of `evaluate_board`; rooks and queens (`pst[4]`,
`pst[5]`) carry all-zero tables. -/
def pst : Nat → List Int
  | 1 => pstPawn
  | 2 => pstKnight
  | 3 => pstBishop
  | 4 => List.replicate 64 0
  | 5 => List.replicate 64 0
  | 6 => pstKing
  | _ => []

/-- One square's contribution to the score: the body of the loop in
`evaluate_board`.  A white piece adds `pst[pt][pos] + piece[pt]`, a black
piece subtracts `pst[pt][63 - pos] + piece[pt]`. -/
def contribution (pt : Nat) (square : Nat) (white : Bool) : Int :=
  if white then (pst pt).getD square 0 + pieceVal pt
  else -((pst pt).getD (63 - square) 0 + pieceVal pt)

/-- `ChessEngine.evaluate_board`: sum the per-square contributions over
`board.piece_map()`, then return `score if board.turn else -score`. -/
def evaluate_board {P M : Type} (R : Rules P M) (p : P) : Int :=
  let score := (R.piece_map p).foldl
    (fun s pos => s + contribution (R.piece_type_at p pos) pos (R.color_at p pos)) 0
  if R.turn p then score else -score

/-- The number of pieces on the board, `len(board.piece_map())`. -/
def pieceCount {P M : Type} (R : Rules P M) (p : P) : Nat :=
  (R.piece_map p).length

/-- `ChessEngine.ordered`: build the move list by inserting captures at
the front (`moves.insert(0, move)`) and appending non-captures
(`moves.append(move)`). -/
def ordered {P M : Type} (R : Rules P M) (p : P) : List M :=
  (R.legal_moves p).foldl
    (fun moves m => if R.is_capture p m then m :: moves else moves ++ [m]) []

/-- Accumulator invariant of the `ordered` loop: starting from
captures-so-far (reversed) followed by non-captures-so-far. -/
theorem ordered_foldl_eq {P M : Type} (R : Rules P M) (p : P) :
    ∀ (l C N : List M),
      l.foldl (fun moves m => if R.is_capture p m then m :: moves else moves ++ [m])
          (C.reverse ++ N)
        = (C ++ l.filter (fun m => R.is_capture p m)).reverse
            ++ (N ++ l.filter (fun m => !R.is_capture p m)) := by
  intro l
  induction l with
  | nil => intro C N; simp
  | cons m l ih =>
    intro C N
    by_cases h : R.is_capture p m = true
    · have h1 : m :: (C.reverse ++ N) = (C ++ [m]).reverse ++ N := by simp
      rw [List.foldl_cons, if_pos h, h1, ih (C ++ [m]) N]
      simp [List.filter_cons, h]
    · have hb : R.is_capture p m = false := by simpa using h
      have h1 : (C.reverse ++ N) ++ [m] = C.reverse ++ (N ++ [m]) := by simp
      rw [List.foldl_cons, if_neg h, h1, ih C (N ++ [m])]
      simp [List.filter_cons, hb]

/-- `ordered` puts the captures, in reverse enumeration order, in front of
the non-captures, which keep their enumeration order. -/
theorem ordered_eq {P M : Type} (R : Rules P M) (p : P) :
    ordered R p
      = ((R.legal_moves p).filter (fun m => R.is_capture p m)).reverse
          ++ (R.legal_moves p).filter (fun m => !R.is_capture p m) := by
  have h := ordered_foldl_eq R p (R.legal_moves p) [] []
  simpa [ordered] using h

/-- The capture loop of `ChessEngine.quiesce`, with the recursive call
abstracted as `q`.  Translates, for each legal move that is a capture:
`board.push(move); score = -q(board, -beta, -alpha); board.pop()`, then
`if score > alpha: (return beta if score >= beta else alpha = score)`. -/
def quiesceLoop {P M : Type} (R : Rules P M)
    (q : P → Int → Int → Option (Int × P)) :
    P → List M → Int → Int → Option (Int × P)
  | p, [], alpha, _ => some (alpha, p)
  | p, m :: ms, alpha, beta =>
    if R.is_capture p m then
      match q (R.push p m) (-beta) (-alpha) with
      | none => none
      | some (s0, p2) =>
        if alpha < -s0 then
          if beta ≤ -s0 then some (beta, R.pop p2)
          else quiesceLoop R q (R.pop p2) ms (-s0) beta
        else quiesceLoop R q (R.pop p2) ms alpha beta
    else quiesceLoop R q p ms alpha beta

/-- `ChessEngine.quiesce`, with a structural fuel parameter bounding the
recursion depth (`none` = out of fuel).  Stand-pat cutoff
(`stand_pat >= beta`), raise alpha (`alpha < stand_pat`), then the
capture loop. -/
def quiesceF {P M : Type} (R : Rules P M) :
    Nat → P → Int → Int → Option (Int × P)
  | 0, _, _, _ => none
  | fuel + 1, p, alpha, beta =>
    let stand_pat := evaluate_board R p
    if beta ≤ stand_pat then some (beta, p)
    else
      let alpha := if alpha < stand_pat then stand_pat else alpha
      quiesceLoop R (quiesceF R fuel) p (R.legal_moves p) alpha beta

/-- The move loop of `ChessEngine.alphaBeta`, with the recursive call
(at `depth - 1`) abstracted as `search`: push, recurse with negated and
swapped bounds, pop, then the beta-cutoff / alpha-raise logic. -/
def abLoop {P M : Type} (R : Rules P M)
    (search : P → Int → Int → Option (Int × P)) :
    P → List M → Int → Int → Option (Int × P)
  | p, [], alpha, _ => some (alpha, p)
  | p, m :: ms, alpha, beta =>
    match search (R.push p m) (-beta) (-alpha) with
    | none => none
    | some (s0, p2) =>
      if alpha < -s0 then
        if beta ≤ -s0 then some (beta, R.pop p2)
        else abLoop R search (R.pop p2) ms (-s0) beta
      else abLoop R search (R.pop p2) ms alpha beta

/-- `ChessEngine.alphaBeta` with structural fuel.  A terminal position
(`board.outcome()` truthy) returns `alpha` on checkmate and `0`
otherwise, before any move enumeration; at `depth == 0` it returns
`quiesce`; otherwise it loops over `ordered(board)`. -/
def alphaBetaF {P M : Type} (R : Rules P M) :
    Nat → P → Int → Int → Nat → Option (Int × P)
  | 0, _, _, _, _ => none
  | fuel + 1, p, alpha, beta, depth =>
    if R.game_over p then
      some (if R.is_checkmate p then alpha else 0, p)
    else if depth = 0 then
      quiesceF R fuel p alpha beta
    else
      abLoop R (fun p1 a b => alphaBetaF R fuel p1 a b (depth - 1)) p
        (ordered R p) alpha beta

/-- The depth policy of `ChessEngine.search_initializer`: the if/elif
chain over `self.move_amount` and `len(board.piece_map())`. -/
def select_depth (move_amount : Nat) (pieces : Nat) : Nat :=
  if 36 ≤ move_amount then 1
  else if 26 ≤ move_amount ∨ pieces ≤ 28 then 2
  else if 18 ≤ move_amount ∨ pieces ≤ 22 then 3
  else if move_amount < 18 ∨ pieces ≤ 8 then 6
  else 1

/-- `ChessEngine.search_initializer`: pick the depth, push the root move,
run `alphaBeta` with bounds `(-100000, 100000)`, negate the score, pop,
and return the `(move, score)` pair (together with the final board
state). -/
def search_initializer {P M : Type} (R : Rules P M) (fuel : Nat)
    (move_amount : Nat) (m : M) (p : P) : Option ((M × Int) × P) :=
  let depth := select_depth move_amount (pieceCount R p)
  match alphaBetaF R fuel (R.push p m) (-100000) 100000 depth with
  | none => none
  | some (s, p2) => some ((m, -s), R.pop p2)

/-- Relation used to embed `self.move_evals.sort(key = lambda x: x[1])`:
ascending comparison on the score component.  Python's sort and
`insertionSort` are both stable ascending sorts, so they produce the same
list. -/
def evalLE {M : Type} (x y : M × Int) : Prop := x.snd ≤ y.snd

instance {M : Type} : DecidableRel (@evalLE M) :=
  fun x y => inferInstanceAs (Decidable (x.snd ≤ y.snd))

instance {M : Type} : IsTotal (M × Int) evalLE :=
  ⟨fun x y => Int.le_total x.snd y.snd⟩

instance {M : Type} : IsTrans (M × Int) evalLE :=
  ⟨fun _ _ _ h1 h2 => Int.le_trans h1 h2⟩

/-- The scored root candidates of `ChessEngine.next_move`:
`pool.map(self.search_initializer, uci_moves, board_list)`, each worker
operating on its own copy of the board (the copies are discarded, only
the `(move, score)` pairs are collected, in move order). -/
def moveEvals {P M : Type} (R : Rules P M) (fuel : Nat) (p : P) :
    Option (List (M × Int)) :=
  (R.legal_moves p).mapM
    (fun m =>
      (search_initializer R fuel (R.legal_moves p).length m p).map Prod.fst)

/-- `self.move_evals` after `sort(key = lambda x: x[1])` and
`reverse()`: the candidates in descending score order. -/
def sortedEvals {P M : Type} (R : Rules P M) (fuel : Nat) (p : P) :
    Option (List (M × Int)) :=
  (moveEvals R fuel p).map (fun evs => (evs.insertionSort evalLE).reverse)

/-- The `remaining_moves` list of `next_move`: SANs of the leading run of
candidates whose score equals `self.move_evals[0][1]`, collected from the
descending list.  `none` also covers the empty-candidate case, where the
python loop collects nothing. -/
def remainingMoves {P M : Type} (R : Rules P M) (fuel : Nat) (p : P) :
    Option (List String) :=
  match sortedEvals R fuel p with
  | none => none
  | some [] => none
  | some (top :: rest) =>
    some (((top :: rest).takeWhile (fun i => top.snd == i.snd)).map
      (fun i => R.san p i.fst))

/-- The error signals `next_move` could surface: the generic python
`IndexError` (indexing an empty list), and the distinct "no legal moves"
usage error the design document posits.  The code only ever produces the
former. -/
inductive EngineError : Type
  | indexError : EngineError
  | noLegalMoves : EngineError
deriving DecidableEq

instance {e a : Type} [DecidableEq e] [DecidableEq a] :
    DecidableEq (Except e a) := fun x y =>
  match x, y with
  | Except.error x1, Except.error y1 =>
    if h : x1 = y1 then Decidable.isTrue (congrArg Except.error h)
    else Decidable.isFalse (fun hh => h (Except.error.inj hh))
  | Except.error _, Except.ok _ =>
    Decidable.isFalse (fun hh => Except.noConfusion hh)
  | Except.ok _, Except.error _ =>
    Decidable.isFalse (fun hh => Except.noConfusion hh)
  | Except.ok x1, Except.ok y1 =>
    if h : x1 = y1 then Decidable.isTrue (congrArg Except.ok h)
    else Decidable.isFalse (fun hh => h (Except.ok.inj hh))

/-- `ChessEngine.next_move` in the no-opening-book configuration
(`self.opening_book is None`): score every legal root move, sort
descending, collect `remaining_moves`, build the `reasoning` string
(whose `self.move_evals[0][1]` raises `IndexError` when there are no
candidates), `random.shuffle(remaining_moves)` (the shuffle outcome is
the `shuffle` parameter), and return `remaining_moves[0]`.  The outer
`Option` is fuel exhaustion, an artifact of the embedding. -/
def next_move {P M : Type} (R : Rules P M) (fuel : Nat) (p : P)
    (shuffle : List String → List String) :
    Option (Except EngineError String) :=
  match sortedEvals R fuel p with
  | none => none
  | some [] => some (Except.error EngineError.indexError)
  | some (top :: rest) =>
    let remaining := ((top :: rest).takeWhile (fun i => top.snd == i.snd)).map
      (fun i => R.san p i.fst)
    match shuffle remaining with
    | [] => some (Except.error EngineError.indexError)
    | s :: _ => some (Except.ok s)

/-! ### Concrete rules-engine instances used for witnesses and
counterexamples.  Board states are move stacks (`List String`), so
`push` is cons and `pop` is tail, matching the python-chess move-stack
discipline. -/

/-- A game whose every position is a terminal checkmate. -/
def mateR : Rules (List String) String where
  legal_moves _ := []
  push p m := m :: p
  pop p := p.tail
  game_over _ := true
  is_checkmate _ := true
  is_capture _ _ := false
  piece_map _ := []
  color_at _ _ := true
  piece_type_at _ _ := 1
  turn _ := true
  san _ m := m

/-- A game whose every position is a terminal draw. -/
def drawR : Rules (List String) String where
  legal_moves _ := []
  push p m := m :: p
  pop p := p.tail
  game_over _ := true
  is_checkmate _ := false
  is_capture _ _ := false
  piece_map _ := []
  color_at _ _ := true
  piece_type_at _ _ := 1
  turn _ := true
  san _ m := m

/-- A game with two quiet root moves leading to drawn positions. -/
def rootR : Rules (List String) String where
  legal_moves p := if p.isEmpty then ["a", "b"] else []
  push p m := m :: p
  pop p := p.tail
  game_over p := !p.isEmpty
  is_checkmate _ := false
  is_capture _ _ := false
  piece_map _ := []
  color_at _ _ := true
  piece_type_at _ _ := 1
  turn _ := true
  san _ m := m

/-- A game offering capture moves while pieces remain: each capture
removes one of the two pieces. -/
def capR : Rules (List String) String where
  legal_moves p := if p.length < 2 then ["c", "d"] else []
  push p m := m :: p
  pop p := p.tail
  game_over _ := false
  is_checkmate _ := false
  is_capture p _ := decide (p.length < 2)
  piece_map p := List.range (2 - p.length)
  color_at _ _ := true
  piece_type_at _ _ := 1
  turn _ := true
  san _ m := m

/-! ### C1 — evaluator material values -/

/-- C1, counterexample: the claim says the king (piece type 6)
contributes no material value, only its positional-table bonus; in the
code the king's per-square contribution on square 0 is `20 + 500 = 520`,
not the bare table bonus `20`. -/
theorem c1_counterexample :
    contribution 6 0 true = 520 ∧ (pst 6).getD 0 0 = 20 ∧
      contribution 6 0 true ≠ (pst 6).getD 0 0 := by
  refine ⟨by decide, by decide, by decide⟩

/-- C1, amended: the evaluator's per-square contribution is the
piece-square-table bonus (mirrored for black) plus the base material
value, where the material values are pawn 100, knight 300, bishop 300,
rook 500, queen 900 — and king 500 (not zero). -/
theorem c1_material_values :
    (pieceVal 1 = 100 ∧ pieceVal 2 = 300 ∧ pieceVal 3 = 300 ∧
      pieceVal 4 = 500 ∧ pieceVal 5 = 900 ∧ pieceVal 6 = 500) ∧
    (∀ pt square : Nat, ∀ white : Bool,
      contribution pt square white =
        if white then (pst pt).getD square 0 + pieceVal pt
        else -((pst pt).getD (63 - square) 0 + pieceVal pt)) := by
  exact ⟨⟨rfl, rfl, rfl, rfl, rfl, rfl⟩, fun _ _ _ => rfl⟩

/-! ### C2 — terminal positions in `alphaBeta` -/

/-- C2, counterexample: on a checkmate position with `alpha = -50` the
search returns `-50`, whose magnitude is far below the claimed
unambiguous sentinel threshold of 100000. -/
theorem c2_counterexample :
    alphaBetaF mateR 1 [] (-50) 50 1 = some (-50, []) ∧
      ((-50 : Int)).natAbs < 100000 := by
  refine ⟨by decide, by decide⟩

/-- C2, amended: on any terminal position `alphaBeta` returns, without
enumerating any moves, `0` for a draw and exactly the incoming `alpha`
for checkmate of the side to move (so the "sentinel" is only as large
as the bounds the caller passed in). -/
theorem c2_terminal (P M : Type) (R : Rules P M) (fuel : Nat) (p : P)
    (alpha beta : Int) (depth : Nat) (h : R.game_over p = true) :
    alphaBetaF R (fuel + 1) p alpha beta depth =
      some (if R.is_checkmate p then alpha else 0, p) := by
  simp [alphaBetaF, h]

/-- Witness for `c2_terminal` at a concrete checkmate position. -/
theorem c2_terminal_witness :
    alphaBetaF mateR 1 [] (-7) 7 2 = some (-7, []) := by
  simpa using c2_terminal (List String) String mateR 0 [] (-7) 7 2 rfl

/-! ### C5 and C10 — the move orderer -/

/-- C5: `ordered` is a permutation of the legal-move list that is a
block of captures followed by a block of non-captures, and the
non-captures keep their relative order. -/
theorem c5_ordered_shape (P M : Type) (R : Rules P M) (p : P) :
    (ordered R p).Perm (R.legal_moves p) ∧
    (∃ cs ns, ordered R p = cs ++ ns ∧
      (∀ m ∈ cs, R.is_capture p m = true) ∧
      (∀ m ∈ ns, R.is_capture p m = false)) ∧
    (ordered R p).filter (fun m => !R.is_capture p m) =
      (R.legal_moves p).filter (fun m => !R.is_capture p m) := by
  refine ⟨?_, ?_, ?_⟩
  · rw [ordered_eq]
    exact ((List.reverse_perm _).append_right _).trans
      (List.filter_append_perm _ _)
  · refine ⟨((R.legal_moves p).filter (fun m => R.is_capture p m)).reverse,
      (R.legal_moves p).filter (fun m => !R.is_capture p m),
      ordered_eq R p, ?_, ?_⟩
    · intro m hm
      rw [List.mem_reverse] at hm
      exact (List.mem_filter.mp hm).2
    · intro m hm
      have := (List.mem_filter.mp hm).2
      simpa using this
  · rw [ordered_eq, List.filter_append, ← List.filter_reverse,
      List.filter_filter]
    simp

/-- C10: `ordered` emits the captures in the reverse of their order in
the legal-move enumeration (each capture was inserted at index 0), so
with two or more captures their relative order is not preserved —
witnessed in the second conjunct by a position with capture list
`["c", "d"]` reordered to `["d", "c"]`. -/
theorem c10_captures_reversed :
    (∀ (P M : Type) (R : Rules P M) (p : P),
      ordered R p =
        ((R.legal_moves p).filter (fun m => R.is_capture p m)).reverse
          ++ (R.legal_moves p).filter (fun m => !R.is_capture p m)) ∧
    ((ordered capR []).filter (fun m => capR.is_capture [] m) ≠
      (capR.legal_moves []).filter (fun m => capR.is_capture [] m)) := by
  refine ⟨fun P M R p => ordered_eq R p, by decide⟩

/-! ### State preservation (the push/pop discipline) -/

/-- The quiescence capture loop leaves the board as it found it, given
that the recursive call does and that `pop` undoes `push`. -/
theorem quiesceLoop_state {P M : Type} (R : Rules P M)
    (q : P → Int → Int → Option (Int × P))
    (hpop : ∀ p m, R.pop (R.push p m) = p)
    (hq : ∀ p a b v p', q p a b = some (v, p') → p' = p) :
    ∀ (ms : List M) (p : P) (a b v : Int) (p' : P),
      quiesceLoop R q p ms a b = some (v, p') → p' = p := by
  intro ms
  induction ms with
  | nil =>
    intro p a b v p' h
    simp only [quiesceLoop, Option.some.injEq, Prod.mk.injEq] at h
    exact h.2.symm
  | cons m ms ih =>
    intro p a b v p' h
    simp only [quiesceLoop] at h
    by_cases hc : R.is_capture p m = true
    · rw [if_pos hc] at h
      cases hq2 : q (R.push p m) (-b) (-a) with
      | none => rw [hq2] at h; exact absurd h (by simp)
      | some sp =>
        obtain ⟨s0, p2⟩ := sp
        rw [hq2] at h
        dsimp only at h
        have hp3 : R.pop p2 = p := by
          rw [hq _ _ _ _ _ hq2]; exact hpop p m
        by_cases h1 : a < -s0
        · rw [if_pos h1] at h
          by_cases h2 : b ≤ -s0
          · rw [if_pos h2] at h
            simp only [Option.some.injEq, Prod.mk.injEq] at h
            rw [← h.2, hp3]
          · rw [if_neg h2] at h
            rw [ih _ _ _ _ _ h, hp3]
        · rw [if_neg h1] at h
          rw [ih _ _ _ _ _ h, hp3]
    · rw [if_neg hc] at h
      exact ih _ _ _ _ _ h

/-- `quiesce` leaves the board as it found it. -/
theorem quiesceF_state {P M : Type} (R : Rules P M)
    (hpop : ∀ p m, R.pop (R.push p m) = p) :
    ∀ (fuel : Nat) (p : P) (a b v : Int) (p' : P),
      quiesceF R fuel p a b = some (v, p') → p' = p := by
  intro fuel
  induction fuel with
  | zero => intro p a b v p' h; exact absurd h (by simp [quiesceF])
  | succ fuel ih =>
    intro p a b v p' h
    simp only [quiesceF] at h
    by_cases hsp : b ≤ evaluate_board R p
    · rw [if_pos hsp] at h
      simp only [Option.some.injEq, Prod.mk.injEq] at h
      exact h.2.symm
    · rw [if_neg hsp] at h
      exact quiesceLoop_state R _ hpop ih _ _ _ _ _ _ h

/-- The alpha-beta move loop leaves the board as it found it. -/
theorem abLoop_state {P M : Type} (R : Rules P M)
    (search : P → Int → Int → Option (Int × P))
    (hpop : ∀ p m, R.pop (R.push p m) = p)
    (hs : ∀ p a b v p', search p a b = some (v, p') → p' = p) :
    ∀ (ms : List M) (p : P) (a b v : Int) (p' : P),
      abLoop R search p ms a b = some (v, p') → p' = p := by
  intro ms
  induction ms with
  | nil =>
    intro p a b v p' h
    simp only [abLoop, Option.some.injEq, Prod.mk.injEq] at h
    exact h.2.symm
  | cons m ms ih =>
    intro p a b v p' h
    simp only [abLoop] at h
    cases hs2 : search (R.push p m) (-b) (-a) with
    | none => rw [hs2] at h; exact absurd h (by simp)
    | some sp =>
      obtain ⟨s0, p2⟩ := sp
      rw [hs2] at h
      dsimp only at h
      have hp3 : R.pop p2 = p := by
        rw [hs _ _ _ _ _ hs2]; exact hpop p m
      by_cases h1 : a < -s0
      · rw [if_pos h1] at h
        by_cases h2 : b ≤ -s0
        · rw [if_pos h2] at h
          simp only [Option.some.injEq, Prod.mk.injEq] at h
          rw [← h.2, hp3]
        · rw [if_neg h2] at h
          rw [ih _ _ _ _ _ h, hp3]
      · rw [if_neg h1] at h
        rw [ih _ _ _ _ _ h, hp3]

/-- `alphaBeta` leaves the board as it found it. -/
theorem alphaBetaF_state {P M : Type} (R : Rules P M)
    (hpop : ∀ p m, R.pop (R.push p m) = p) :
    ∀ (fuel : Nat) (p : P) (a b : Int) (d : Nat) (v : Int) (p' : P),
      alphaBetaF R fuel p a b d = some (v, p') → p' = p := by
  intro fuel
  induction fuel with
  | zero => intro p a b d v p' h; exact absurd h (by simp [alphaBetaF])
  | succ fuel ih =>
    intro p a b d v p' h
    simp only [alphaBetaF] at h
    by_cases hg : R.game_over p = true
    · rw [if_pos hg] at h
      simp only [Option.some.injEq, Prod.mk.injEq] at h
      exact h.2.symm
    · rw [if_neg hg] at h
      by_cases hd : d = 0
      · rw [if_pos hd] at h
        exact quiesceF_state R hpop fuel _ _ _ _ _ h
      · rw [if_neg hd] at h
        exact abLoop_state R _ hpop (fun p1 a1 b1 v1 p1' hh => ih p1 a1 b1 _ v1 p1' hh)
          _ _ _ _ _ _ h

/-! ### C6 — the search restores the position on every path -/

/-- C6: after `alphaBeta` (and, at the root, `search_initializer`)
returns, the board state handed back is exactly the board state passed
in — push and pop are balanced on every path, including the early
beta-cutoff returns — given the rules-engine round-trip law
`pop (push p m) = p`. -/
theorem c6_position_restored (P M : Type) (R : Rules P M)
    (hpop : ∀ p m, R.pop (R.push p m) = p) :
    (∀ (fuel : Nat) (p : P) (a b : Int) (d : Nat) (v : Int) (p' : P),
      alphaBetaF R fuel p a b d = some (v, p') → p' = p) ∧
    (∀ (fuel move_amount : Nat) (m : M) (p : P) (r : M × Int) (p' : P),
      search_initializer R fuel move_amount m p = some (r, p') → p' = p) := by
  refine ⟨alphaBetaF_state R hpop, ?_⟩
  intro fuel move_amount m p r p' h
  simp only [search_initializer] at h
  cases hab : alphaBetaF R fuel (R.push p m) (-100000) 100000
      (select_depth move_amount (pieceCount R p)) with
  | none => rw [hab] at h; exact absurd h (by simp)
  | some sp =>
    obtain ⟨s, p2⟩ := sp
    rw [hab] at h
    dsimp only at h
    simp only [Option.some.injEq, Prod.mk.injEq] at h
    rw [← h.2, alphaBetaF_state R hpop _ _ _ _ _ _ _ hab]
    exact hpop p m

/-- Witness for `c6_position_restored` on a concrete two-move game:
a depth-1 search from the empty stack hands back the empty stack. -/
theorem c6_position_restored_witness : ([] : List String) = [] :=
  (c6_position_restored (List String) String rootR (fun p m => rfl)).1
    3 [] (-100000) 100000 1 0 [] (by decide)

/-! ### C3 — alpha-beta bounds containment -/

/-- The alpha-beta move loop returns a value in `[alpha, beta]`,
whatever the recursive calls return. -/
theorem abLoop_bounds {P M : Type} (R : Rules P M)
    (search : P → Int → Int → Option (Int × P)) :
    ∀ (ms : List M) (p : P) (a b v : Int) (p' : P), a ≤ b →
      abLoop R search p ms a b = some (v, p') → a ≤ v ∧ v ≤ b := by
  intro ms
  induction ms with
  | nil =>
    intro p a b v p' hab h
    simp only [abLoop, Option.some.injEq, Prod.mk.injEq] at h
    exact ⟨le_of_eq h.1, h.1 ▸ hab⟩
  | cons m ms ih =>
    intro p a b v p' hab h
    simp only [abLoop] at h
    cases hs2 : search (R.push p m) (-b) (-a) with
    | none => rw [hs2] at h; exact absurd h (by simp)
    | some sp =>
      obtain ⟨s0, p2⟩ := sp
      rw [hs2] at h
      dsimp only at h
      by_cases h1 : a < -s0
      · rw [if_pos h1] at h
        by_cases h2 : b ≤ -s0
        · rw [if_pos h2] at h
          simp only [Option.some.injEq, Prod.mk.injEq] at h
          exact ⟨h.1 ▸ hab, le_of_eq h.1.symm⟩
        · rw [if_neg h2] at h
          have := ih _ _ _ _ _ (le_of_lt (lt_of_not_le h2)) h
          exact ⟨le_trans (le_of_lt h1) this.1, this.2⟩
      · rw [if_neg h1] at h
        exact ih _ _ _ _ _ hab h

/-- C3, amended: for `alpha ≤ beta` and fixed depth ≥ 1 the search value
lies in `[alpha, beta]` — except that a position that is itself a
terminal draw returns `0` regardless of the bounds. -/
theorem c3_bounds_containment (P M : Type) (R : Rules P M)
    (fuel : Nat) (p : P) (a b : Int) (d : Nat) (v : Int) (p' : P)
    (hab : a ≤ b) (hd : 1 ≤ d)
    (h : alphaBetaF R fuel p a b d = some (v, p')) :
    (a ≤ v ∧ v ≤ b) ∨
      (v = 0 ∧ R.game_over p = true ∧ R.is_checkmate p = false) := by
  cases fuel with
  | zero => exact absurd h (by simp [alphaBetaF])
  | succ fuel =>
    simp only [alphaBetaF] at h
    by_cases hg : R.game_over p = true
    · rw [if_pos hg] at h
      simp only [Option.some.injEq, Prod.mk.injEq] at h
      by_cases hm : R.is_checkmate p = true
      · rw [if_pos hm] at h
        exact Or.inl ⟨le_of_eq h.1, h.1 ▸ hab⟩
      · rw [if_neg hm] at h
        exact Or.inr ⟨h.1.symm, hg, by simpa using hm⟩
    · rw [if_neg hg] at h
      rw [if_neg (by omega : ¬ d = 0)] at h
      exact Or.inl (abLoop_bounds R _ _ _ _ _ _ _ hab h)

/-- C3, counterexample: on a terminal-draw position with bounds
`(5, 10)` and depth 1 the search returns `0`, outside `[5, 10]`. -/
theorem c3_counterexample :
    (5 : Int) ≤ 10 ∧
      alphaBetaF drawR 1 [] 5 10 1 = some (0, []) ∧
      ¬ ((5 : Int) ≤ 0) := by
  refine ⟨by decide, by decide, by decide⟩

/-- Witness for `c3_bounds_containment`: a depth-1 search on the
two-move game with bounds `(-5, 5)` returns a value in those bounds. -/
theorem c3_bounds_containment_witness :
    (((-5 : Int) ≤ 0 ∧ (0 : Int) ≤ 5) ∨
      ((0 : Int) = 0 ∧ rootR.game_over [] = true ∧
        rootR.is_checkmate [] = false)) :=
  c3_bounds_containment (List String) String rootR 3 [] (-5) 5 1 0 []
    (by decide) (by decide) (by decide)

/-! ### C4 — the depth-0 boundary -/

/-- C4, amended: on every position that is not terminal, the search at
depth 0 with the root bounds `(-100000, 100000)` is exactly the
quiescence search with those bounds (one unit of fuel is consumed by
the `alphaBeta` frame itself).  On terminal positions the two differ,
because `alphaBeta` tests for mates and draws first. -/
theorem c4_depth0 (P M : Type) (R : Rules P M) (fuel : Nat) (p : P)
    (h : R.game_over p = false) :
    alphaBetaF R (fuel + 1) p (-100000) 100000 0 =
      quiesceF R fuel p (-100000) 100000 := by
  simp [alphaBetaF, h]

/-- Witness for `c4_depth0` at a concrete non-terminal position. -/
theorem c4_depth0_witness :
    alphaBetaF rootR 3 [] (-100000) 100000 0 =
      quiesceF rootR 2 [] (-100000) 100000 :=
  c4_depth0 (List String) String rootR 2 [] rfl

/-- C4, counterexample: on a terminal (checkmate) position the depth-0
search returns `-100000` while quiescence returns `0`; the claimed
equality for *every* position fails. -/
theorem c4_counterexample :
    (alphaBetaF mateR 4 [] (-100000) 100000 0).map Prod.fst =
        some (-100000) ∧
      (quiesceF mateR 3 [] (-100000) 100000).map Prod.fst = some 0 ∧
      some ((-100000 : Int)) ≠ some (0 : Int) := by
  refine ⟨by decide, by decide, by decide⟩

/-! ### C9 — termination of quiescence -/

/-- The capture loop succeeds as long as every capture's recursive call
succeeds (for every pair of bounds), the recursive call preserves state,
and `pop` undoes `push`. -/
theorem quiesceLoop_total {P M : Type} (R : Rules P M)
    (q : P → Int → Int → Option (Int × P))
    (hpop : ∀ p m, R.pop (R.push p m) = p)
    (hq : ∀ p a b v p', q p a b = some (v, p') → p' = p) :
    ∀ (ms : List M) (p : P) (a b : Int),
      (∀ m a1 b1, R.is_capture p m = true →
        (q (R.push p m) a1 b1).isSome = true) →
      (quiesceLoop R q p ms a b).isSome = true := by
  intro ms
  induction ms with
  | nil => intro p a b _; simp [quiesceLoop]
  | cons m ms ih =>
    intro p a b hcap
    simp only [quiesceLoop]
    by_cases hc : R.is_capture p m = true
    · rw [if_pos hc]
      cases hq2 : q (R.push p m) (-b) (-a) with
      | none =>
        have := hcap m (-b) (-a) hc
        rw [hq2] at this
        exact absurd this (by simp)
      
      | some sp =>
        obtain ⟨s0, p2⟩ := sp
        dsimp only
        have hp3 : R.pop p2 = p := by
          rw [hq _ _ _ _ _ hq2]; exact hpop p m
        by_cases h1 : a < -s0
        · rw [if_pos h1]
          by_cases h2 : b ≤ -s0
          · rw [if_pos h2]; simp
          · rw [if_neg h2, hp3]
            exact ih p _ _ hcap
        · rw [if_neg h1, hp3]
          exact ih p _ _ hcap
    · rw [if_neg hc]
      exact ih p _ _ hcap

/-- C9: the quiescence search terminates — it recurses only through
captures, and since a capture strictly reduces the number of pieces on
the board, recursion depth `len(board.piece_map())` suffices: with any
fuel above the piece count the fuel never runs out. -/
theorem c9_quiesce_terminates (P M : Type) (R : Rules P M)
    (hpop : ∀ p m, R.pop (R.push p m) = p)
    (hcap : ∀ p m, R.is_capture p m = true →
      pieceCount R (R.push p m) < pieceCount R p) :
    ∀ (fuel : Nat) (p : P) (a b : Int), pieceCount R p < fuel →
      (quiesceF R fuel p a b).isSome = true := by
  intro fuel
  induction fuel with
  | zero => intro p a b hf; exact absurd hf (by omega)
  | succ fuel ih =>
    intro p a b hf
    simp only [quiesceF]
    by_cases hsp : b ≤ evaluate_board R p
    · rw [if_pos hsp]; simp
    · rw [if_neg hsp]
      refine quiesceLoop_total R _ hpop (quiesceF_state R hpop fuel) _ _ _ _ ?_
      intro m a1 b1 hc
      refine ih _ a1 b1 ?_
      have h1 := hcap p m hc
      omega

/-- Witness for `c9_quiesce_terminates` on the concrete capture game
(two pieces, so fuel 3 suffices from the empty stack). -/
theorem c9_quiesce_terminates_witness :
    (quiesceF capR 3 [] (-5) 5).isSome = true :=
  c9_quiesce_terminates (List String) String capR (fun p m => rfl)
    (fun p m h => by
      have hlen : p.length < 2 := of_decide_eq_true h
      show pieceCount capR (capR.push p m) < pieceCount capR p
      simp only [pieceCount, capR, List.length_range, List.length_cons]
      omega)
    3 [] (-5) 5 (by decide)

/-! ### C7 — the root orchestrator on a position with no legal moves -/

/-- C7, amended: called on a position with zero legal moves (and no
opening book), `next_move` never produces a move, but the failure is the
generic `IndexError` from evaluating `self.move_evals[0]` on an empty
list, not a distinct "no legal moves" usage error. -/
theorem c7_no_moves (P M : Type) (R : Rules P M) (fuel : Nat) (p : P)
    (shuffle : List String → List String)
    (h : R.legal_moves p = []) :
    next_move R fuel p shuffle =
      some (Except.error EngineError.indexError) := by
  simp [next_move, sortedEvals, moveEvals, h, List.mapM, List.mapM.loop,
    List.insertionSort]

/-- Witness for `c7_no_moves` at a concrete moveless position. -/
theorem c7_no_moves_witness :
    next_move mateR 1 [] id = some (Except.error EngineError.indexError) :=
  c7_no_moves (List String) String mateR 1 [] id rfl

/-- C7, counterexample: the claimed distinct "no legal moves" usage
error is never signalled — the concrete run yields the generic
`IndexError` instead. -/
theorem c7_counterexample :
    next_move mateR 1 [] id ≠
      some (Except.error EngineError.noLegalMoves) := by
  decide

/-! ### C8 — root move selection: maximal score, uniform tie-break -/

/-- `search_initializer` tags its result with the move it was given. -/
theorem search_initializer_fst {P M : Type} (R : Rules P M) (fuel n : Nat)
    (m : M) (p : P) (e : M × Int)
    (h : (search_initializer R fuel n m p).map Prod.fst = some e) :
    e.fst = m := by
  simp only [search_initializer] at h
  cases hab : alphaBetaF R fuel (R.push p m) (-100000) 100000
      (select_depth n (pieceCount R p)) with
  | none => rw [hab] at h; exact absurd h (by simp)
  | some sp =>
    obtain ⟨s, p2⟩ := sp
    rw [hab] at h
    have he : (m, -s) = e := by simpa using h
    rw [← he]

/-- `mapM` over `Option` with a tagging function returns a list whose
first components are exactly the input list. -/
theorem mapM_fst {M : Type} (g : M → Option (M × Int))
    (hg : ∀ m e, g m = some e → e.fst = m) :
    ∀ (l : List M) (evs : List (M × Int)),
      l.mapM g = some evs → evs.map Prod.fst = l := by
  intro l
  induction l with
  | nil =>
    intro evs h
    simp only [List.mapM_nil, pure, Option.some.injEq] at h
    rw [← h]; rfl
  | cons m l ih =>
    intro evs h
    rw [List.mapM_cons] at h
    cases hm : g m with
    | none => rw [hm] at h; exact absurd h (by simp [Bind.bind])
    | some e =>
      rw [hm] at h
      cases hl : l.mapM g with
      | none =>
        rw [hl] at h
        exact absurd h (by simp [Bind.bind])
      | some es =>
        rw [hl] at h
        have hev : e :: es = evs := by simpa using h
        rw [← hev, List.map_cons, hg m e hm, ih es hl]

/-- Counting permutations by first element: in the list of permutations
of a duplicate-free list `l`, those starting with a given element `x ∈ l`
are exactly a `1 / length l` share — the combinatorial core of "shuffle
then take the head is uniform". -/
theorem perm_head_count {α : Type} [DecidableEq α] (l : List α)
    (hl : l.Nodup) (x : α) (hx : x ∈ l) :
    ((l.permutations.filter (fun t => t.head? == some x)).length) * l.length
      = l.permutations.length := by
  have hpn : l.permutations.Nodup := List.nodup_permutations l hl
  have hfn : (l.permutations.filter (fun t => t.head? == some x)).Nodup :=
    hpn.filter _
  have hen : (l.erase x).Nodup := hl.erase x
  have hepn : (l.erase x).permutations.Nodup := List.nodup_permutations _ hen
  have hcard :
      (l.permutations.filter (fun t => t.head? == some x)).length
        = (l.erase x).permutations.length := by
    rw [← List.toFinset_card_of_nodup hfn, ← List.toFinset_card_of_nodup hepn]
    refine Finset.card_bij (fun t _ => t.tail) ?_ ?_ ?_
    · intro t ht
      rw [List.mem_toFinset, List.mem_filter] at ht
      obtain ⟨hperm, hhead⟩ := ht
      rw [List.mem_permutations] at hperm
      have hhead' : t.head? = some x := by simpa using hhead
      obtain ⟨t', rfl⟩ : ∃ t', t = x :: t' := by
        cases t with
        | nil => simp at hhead'
        | cons a t' =>
          simp only [List.head?_cons, Option.some.injEq] at hhead'
          exact ⟨t', by rw [hhead']⟩
      dsimp only
      rw [List.mem_toFinset, List.mem_permutations, List.tail_cons]
      exact (hperm.trans (List.perm_cons_erase hx)).cons_inv
    · intro t1 h1 t2 h2 heq
      rw [List.mem_toFinset, List.mem_filter] at h1 h2
      have e1 : t1.head? = some x := by simpa using h1.2
      have e2 : t2.head? = some x := by simpa using h2.2
      obtain ⟨t1', rfl⟩ : ∃ t', t1 = x :: t' := by
        cases t1 with
        | nil => simp at e1
        | cons a t' =>
          simp only [List.head?_cons, Option.some.injEq] at e1
          exact ⟨t', by rw [e1]⟩
      obtain ⟨t2', rfl⟩ : ∃ t', t2 = x :: t' := by
        cases t2 with
        | nil => simp at e2
        | cons a t' =>
          simp only [List.head?_cons, Option.some.injEq] at e2
          exact ⟨t', by rw [e2]⟩
      dsimp only at heq
      simp only [List.tail_cons] at heq
      rw [heq]
    · intro q hq
      rw [List.mem_toFinset, List.mem_permutations] at hq
      refine ⟨x :: q, ?_, rfl⟩
      rw [List.mem_toFinset, List.mem_filter, List.mem_permutations]
      exact ⟨(hq.cons x).trans (List.perm_cons_erase hx).symm, by simp⟩
  rw [hcard, List.length_permutations, List.length_permutations]
  have hle : (l.erase x).length = l.length - 1 := List.length_erase_of_mem hx
  obtain ⟨n, hn⟩ : ∃ n, l.length = n + 1 := by
    cases hl2 : l with
    | nil => rw [hl2] at hx; simp at hx
    | cons a t => exact ⟨t.length, rfl⟩
  rw [hle, hn]
  simp only [Nat.add_sub_cancel]
  rw [Nat.factorial_succ, Nat.mul_comm]

/-- The reversed insertion sort is descending on scores. -/
theorem sortedEvals_desc {M : Type} (evs : List (M × Int)) :
    List.Pairwise (fun a b => evalLE b a)
      ((evs.insertionSort evalLE).reverse) := by
  rw [List.pairwise_reverse]
  exact List.sorted_insertionSort evalLE evs

/-- In a descending list bounded by `c`, every element of value `c` is
inside the leading `takeWhile (c == ·.snd)` run. -/
theorem mem_takeWhile_of_eq_max {M : Type} :
    ∀ (c : Int) (l : List (M × Int)),
      List.Pairwise (fun a b => b.snd ≤ a.snd) l →
      (∀ x ∈ l, x.snd ≤ c) →
      ∀ e ∈ l, e.snd = c →
      e ∈ l.takeWhile (fun i => c == i.snd) := by
  intro c l
  induction l with
  | nil => intro _ _ e he; simp at he
  | cons a l ih =>
    intro hp hle e he hec
    rcases List.mem_cons.mp he with rfl | hel
    · have hpa : (c == e.snd) = true := by simpa using hec.symm
      rw [List.takeWhile_cons, if_pos hpa]
      exact List.mem_cons_self _ _
    · have h1 : e.snd ≤ a.snd := (List.pairwise_cons.mp hp).1 e hel
      have h2 : a.snd ≤ c := hle a (List.mem_cons_self a l)
      have h3 : a.snd = c := le_antisymm h2 (hec ▸ h1)
      have hpa : (c == a.snd) = true := by simpa using h3.symm
      rw [List.takeWhile_cons, if_pos hpa]
      exact List.mem_cons_of_mem a
        (ih (List.pairwise_cons.mp hp).2
          (fun x hx => hle x (List.mem_cons_of_mem a hx)) e hel hec)

/-- C8: with no book, at least one legal move and enough fuel, the move
`next_move` returns is the SAN of a root candidate whose (negated) search
score equals the exact integer maximum over all candidates; and, the
shuffle being a uniformly random permutation of the maximal-set SANs
`rm`, each element of `rm` is returned by exactly a `1 / |rm|` share of
the possible shuffle outcomes (uniform tie-break). -/
theorem c8_best_move_uniform (P M : Type) (R : Rules P M) (fuel : Nat)
    (p : P) (shuffle : List String → List String) (s : String)
    (evs : List (M × Int)) (rm : List String)
    (hshuf : ∀ l, (shuffle l).Perm l)
    (hnodup : (R.legal_moves p).Nodup)
    (hsan : ∀ m1, m1 ∈ R.legal_moves p → ∀ m2, m2 ∈ R.legal_moves p →
      R.san p m1 = R.san p m2 → m1 = m2)
    (hevs : moveEvals R fuel p = some evs)
    (hrm : remainingMoves R fuel p = some rm)
    (hok : next_move R fuel p shuffle = some (Except.ok s)) :
    (∃ e, e ∈ evs ∧ s = R.san p e.fst ∧ ∀ e1, e1 ∈ evs → e1.snd ≤ e.snd) ∧
    (s ∈ rm) ∧
    (∀ x, x ∈ rm ↔ ∃ e, e ∈ evs ∧ x = R.san p e.fst ∧
      ∀ e1, e1 ∈ evs → e1.snd ≤ e.snd) ∧
    (∀ x, x ∈ rm →
      ((rm.permutations.filter (fun t => t.head? == some x)).length)
          * rm.length
        = rm.permutations.length) := by
  have hse : sortedEvals R fuel p = some ((evs.insertionSort evalLE).reverse) := by
    rw [sortedEvals, hevs]; rfl
  have hdesc := sortedEvals_desc evs
  have hperm0 : ((evs.insertionSort evalLE).reverse).Perm evs :=
    (List.reverse_perm _).trans (List.perm_insertionSort evalLE evs)
  rcases hse3 : (evs.insertionSort evalLE).reverse with _ | ⟨top, rest⟩
  · rw [hse3] at hse
    simp only [next_move, hse] at hok
    simp at hok
  · rw [hse3] at hse hdesc hperm0
    simp only [next_move, hse] at hok
    simp only [remainingMoves, hse, Option.some.injEq] at hrm
    have hall : ∀ b ∈ rest, b.snd ≤ top.snd :=
      fun b hb => (List.pairwise_cons.mp hdesc).1 b hb
    cases hsh : shuffle (((top :: rest).takeWhile
        (fun i => top.snd == i.snd)).map (fun i => R.san p i.fst)) with
    | nil => rw [hsh] at hok; simp at hok
    | cons s1 tl =>
      rw [hsh] at hok
      simp only [Option.some.injEq, Except.ok.injEq] at hok
      have hs_mem : s ∈ ((top :: rest).takeWhile
          (fun i => top.snd == i.snd)).map (fun i => R.san p i.fst) := by
        have h1 : s ∈ shuffle (((top :: rest).takeWhile
            (fun i => top.snd == i.snd)).map (fun i => R.san p i.fst)) := by
          rw [hsh, ← hok]
          exact List.mem_cons_self s1 tl
        exact (hshuf _).mem_iff.mp h1
      obtain ⟨i, hi_tw, hi_s⟩ := List.mem_map.mp hs_mem
      have hi_se : i ∈ top :: rest := (List.takeWhile_sublist _).subset hi_tw
      have hi_top : top.snd = i.snd := by
        have := List.mem_takeWhile_imp hi_tw
        simpa using this
      have hmax_top : ∀ e1, e1 ∈ evs → e1.snd ≤ top.snd := by
        intro e1 he1
        rcases List.mem_cons.mp (hperm0.symm.subset he1) with h | h
        · rw [h]
        · exact hall e1 h
      refine ⟨⟨i, hperm0.subset hi_se, hi_s.symm, ?_⟩, ?_, ?_, ?_⟩
      · intro e1 he1
        rw [← hi_top]
        exact hmax_top e1 he1
      · rw [← hrm]; exact hs_mem
      · intro x
        constructor
        · intro hx
          rw [← hrm] at hx
          obtain ⟨j, hj_tw, hj_s⟩ := List.mem_map.mp hx
          have hj_se : j ∈ top :: rest := (List.takeWhile_sublist _).subset hj_tw
          have hj_top : top.snd = j.snd := by
            have := List.mem_takeWhile_imp hj_tw
            simpa using this
          exact ⟨j, hperm0.subset hj_se, hj_s.symm,
            fun e1 he1 => hj_top ▸ hmax_top e1 he1⟩
        · rintro ⟨e, he, rfl, hemax⟩
          rw [← hrm]
          have he_se : e ∈ top :: rest := hperm0.symm.subset he
          have he_top : e.snd = top.snd :=
            le_antisymm (hmax_top e he)
              (hemax top (hperm0.subset (List.mem_cons_self top rest)))
          exact List.mem_map_of_mem _
            (mem_takeWhile_of_eq_max top.snd (top :: rest) hdesc
              (fun x hx => hmax_top x (hperm0.subset hx)) e he_se he_top)
      · -- the tie-break list has no duplicates, so counting applies
        have hfst : evs.map Prod.fst = R.legal_moves p :=
          mapM_fst _ (fun m e h => search_initializer_fst R fuel
            (R.legal_moves p).length m p e h) _ evs hevs
        have hnevs : evs.Nodup := by
          refine List.Nodup.of_map Prod.fst ?_
          rw [hfst]; exact hnodup
        have hnse : (top :: rest).Nodup := hperm0.nodup_iff.mpr hnevs
        have hntw : ((top :: rest).takeWhile
            (fun i => top.snd == i.snd)).Nodup :=
          (List.takeWhile_sublist _).nodup hnse
        have hinj := List.inj_on_of_nodup_map (f := Prod.fst) (l := evs)
          (by rw [hfst]; exact hnodup)
        have hnrm : rm.Nodup := by
          rw [← hrm]
          refine List.Nodup.map_on ?_ hntw
          intro a ha b hb hab
          have ha2 : a ∈ evs :=
            hperm0.subset ((List.takeWhile_sublist _).subset ha)
          have hb2 : b ∈ evs :=
            hperm0.subset ((List.takeWhile_sublist _).subset hb)
          have ha3 : a.fst ∈ R.legal_moves p := by
            rw [← hfst]; exact List.mem_map_of_mem Prod.fst ha2
          have hb3 : b.fst ∈ R.legal_moves p := by
            rw [← hfst]; exact List.mem_map_of_mem Prod.fst hb2
          exact hinj ha2 hb2 (hsan a.fst ha3 b.fst hb3 hab)
        intro x hx
        exact perm_head_count rm hnrm x hx

/-- Witness for `c8_best_move_uniform` on the concrete two-move game:
both root moves score 0, the tie-break set is `["b", "a"]`, the identity
shuffle returns `"b"`, and each of the two SANs heads exactly half of
the `2! = 2` shuffle outcomes. -/
theorem c8_best_move_uniform_witness :
    (∃ e, e ∈ [("a", (0 : Int)), ("b", 0)] ∧ "b" = rootR.san [] e.fst ∧
      ∀ e1, e1 ∈ [("a", (0 : Int)), ("b", 0)] → e1.snd ≤ e.snd) ∧
    ("b" ∈ (["b", "a"] : List String)) ∧
    (∀ x, x ∈ (["b", "a"] : List String) ↔
      ∃ e, e ∈ [("a", (0 : Int)), ("b", 0)] ∧ x = rootR.san [] e.fst ∧
        ∀ e1, e1 ∈ [("a", (0 : Int)), ("b", 0)] → e1.snd ≤ e.snd) ∧
    (∀ x, x ∈ (["b", "a"] : List String) →
      (((["b", "a"] : List String).permutations.filter
          (fun t => t.head? == some x)).length)
          * (["b", "a"] : List String).length
        = (["b", "a"] : List String).permutations.length) :=
  c8_best_move_uniform (List String) String rootR 1 [] id "b"
    [("a", 0), ("b", 0)] ["b", "a"]
    (fun l => List.Perm.refl l)
    (by decide)
    (fun m1 _ m2 _ h => h)
    (by decide)
    (by decide)
    (by decide)

end Cuckfish
